import Mathlib

/-!
# GrappleMap `positions.hpp`: joints, positions, segments and the reorientation algebra

A shallow embedding of `src/positions.hpp`.

* Enumerations become inductive types, `std::array<T, N>` becomes `Fin N → T`.
* `PlayerNum` is `unsigned`: a natural number, with 32-bit wrap-around made explicit
  in `opponent`.
* Indexing an array out of bounds is undefined behaviour in the source; here a lookup
  or a store through a `PlayerJoint` returns `Option`, and `none` stands for the
  out-of-bounds access.
* `math.hpp` is not part of the sources at hand, so the point type, the `Reorientation`
  type and the three primitives on them are parameters (`Geometry`), and so are the
  vector operations used by `between` and `basicallySame` (`VectorOps`). `V3` with its
  componentwise operations is the standard instance of the latter.
* `double` values are read as exact rationals. For `basicallySame` there is in addition
  a reading in `double` arithmetic (`basicallySameDouble`), where every operation is
  the exact one followed by rounding to the nearest double.
* `spring` is declared in `positions.hpp` without a body; it is modelled from the
  description of the relaxation solver, with the correction amounts as parameters
  (`Relaxation`).
-/

namespace GrappleMap

/-! ## Joints and players -/

/-- The `JOINTS` enumeration (`enum Joint : uint32_t`), in declaration order. -/
inductive Joint where
  | LeftToe | RightToe
  | LeftHeel | RightHeel
  | LeftAnkle | RightAnkle
  | LeftKnee | RightKnee
  | LeftHip | RightHip
  | LeftShoulder | RightShoulder
  | LeftElbow | RightElbow
  | LeftWrist | RightWrist
  | LeftHand | RightHand
  | LeftFingers | RightFingers
  | Core | Neck | Head
  deriving DecidableEq, Repr

open Joint

/-- The underlying `uint32_t` value of an enumerator: its position in `JOINTS`. -/
def Joint.toNat : Joint → Nat
  | LeftToe => 0 | RightToe => 1
  | LeftHeel => 2 | RightHeel => 3
  | LeftAnkle => 4 | RightAnkle => 5
  | LeftKnee => 6 | RightKnee => 7
  | LeftHip => 8 | RightHip => 9
  | LeftShoulder => 10 | RightShoulder => 11
  | LeftElbow => 12 | RightElbow => 13
  | LeftWrist => 14 | RightWrist => 15
  | LeftHand => 16 | RightHand => 17
  | LeftFingers => 18 | RightFingers => 19
  | Core => 20 | Neck => 21 | Head => 22

/-- The array `constexpr Joint joints[] = { JOINTS }`. -/
def joints : List Joint :=
  [ LeftToe, RightToe
  , LeftHeel, RightHeel
  , LeftAnkle, RightAnkle
  , LeftKnee, RightKnee
  , LeftHip, RightHip
  , LeftShoulder, RightShoulder
  , LeftElbow, RightElbow
  , LeftWrist, RightWrist
  , LeftHand, RightHand
  , LeftFingers, RightFingers
  , Core, Neck, Head ]

/-- The constant `joint_count = sizeof(joints) / sizeof(Joint)`. -/
def joint_count : Nat := joints.length

/-- The type `PlayerNum = unsigned`: a value below `2 ^ 32`. -/
abbrev PlayerNum := Nat

/-- The function `opponent(p) = 1 - p`, computed on 32-bit unsigned numbers. -/
def opponent (p : PlayerNum) : PlayerNum :=
  (4294967296 + 1 - p % 4294967296) % 4294967296

/-- The key `struct PlayerJoint { PlayerNum player; Joint joint; }`. -/
structure PlayerJoint where
  player : PlayerNum
  joint : Joint
  deriving DecidableEq, Repr

/-- The array slot addressed by a key: player index and joint ordinal. -/
def PlayerJoint.slot (i : PlayerJoint) : Nat × Nat := (i.player, i.joint.toNat)

/-- The container `PerPlayer<T> = std::array<T, 2>`. -/
abbrev PerPlayer (T : Type) := Fin 2 → T

/-- The container `PerJoint<T> = std::array<T, joint_count>`. -/
abbrev PerJoint (T : Type) := Fin joint_count → T

/-- The container `PerPlayerJoint<T>`: a `PerPlayer<PerJoint<T>>`. -/
abbrev PerPlayerJoint (T : Type) := PerPlayer (PerJoint T)

/-- Read access `operator[](PlayerJoint i) const`, that is `(*this)[i.player][i.joint]`;
`none` when an index is outside its array. -/
def PerPlayerJoint.get? {T : Type} (p : PerPlayerJoint T) (i : PlayerJoint) : Option T :=
  if h : i.player < 2 ∧ i.joint.toNat < joint_count then
    some (p ⟨i.player, h.1⟩ ⟨i.joint.toNat, h.2⟩)
  else none

/-- Write access through `operator[](PlayerJoint i)`: the container with the entry at
`i` replaced by `v`; `none` when an index is outside its array. -/
def PerPlayerJoint.set? {T : Type} (p : PerPlayerJoint T) (i : PlayerJoint) (v : T) :
    Option (PerPlayerJoint T) :=
  if h : i.player < 2 ∧ i.joint.toNat < joint_count then
    some (Function.update p ⟨i.player, h.1⟩
      (Function.update (p ⟨i.player, h.1⟩) ⟨i.joint.toNat, h.2⟩ v))
  else none

/-- The type `Position = PerPlayerJoint<V3>`, for a point type `V`. -/
abbrev Position (V : Type) := PerPlayerJoint V

/-- Modelled from the spec: the table `playerJoints` is only declared in
`positions.hpp` (`extern std::array<PlayerJoint, joint_count * 2> const playerJoints`),
its initialiser is missing. It is the enumeration of the key space of 2 × 23 = 46
(player, joint) pairs, each key once: player 0 with every joint, then player 1. -/
def playerJoints : List PlayerJoint :=
  (joints.map (fun j => PlayerJoint.mk 0 j)) ++ (joints.map (fun j => PlayerJoint.mk 1 j))

/-! ## Segments -/

/-- The record `struct Segment`; `ends` is the two-element array of end joints,
lengths are in meters. -/
structure Segment where
  ends : Joint × Joint
  length : ℚ
  midpointRadius : ℚ
  visible : Bool
  deriving DecidableEq

/-- The table returned by `segments()`. -/
def segments : List Segment :=
  [ ⟨(LeftToe, LeftHeel), 0.23, 0.025, true⟩
  , ⟨(LeftToe, LeftAnkle), 0.18, 0.025, true⟩
  , ⟨(LeftHeel, LeftAnkle), 0.09, 0.025, true⟩
  , ⟨(LeftAnkle, LeftKnee), 0.42, 0.055, true⟩
  , ⟨(LeftKnee, LeftHip), 0.44, 0.085, true⟩
  , ⟨(LeftHip, Core), 0.27, 0.1, true⟩
  , ⟨(Core, LeftShoulder), 0.37, 0.075, true⟩
  , ⟨(LeftShoulder, LeftElbow), 0.29, 0.06, true⟩
  , ⟨(LeftElbow, LeftWrist), 0.26, 0.03, true⟩
  , ⟨(LeftWrist, LeftHand), 0.08, 0.02, true⟩
  , ⟨(LeftHand, LeftFingers), 0.08, 0.02, true⟩
  , ⟨(LeftWrist, LeftFingers), 0.14, 0.02, false⟩

  , ⟨(RightToe, RightHeel), 0.23, 0.025, true⟩
  , ⟨(RightToe, RightAnkle), 0.18, 0.025, true⟩
  , ⟨(RightHeel, RightAnkle), 0.09, 0.025, true⟩
  , ⟨(RightAnkle, RightKnee), 0.42, 0.055, true⟩
  , ⟨(RightKnee, RightHip), 0.44, 0.085, true⟩
  , ⟨(RightHip, Core), 0.27, 0.1, true⟩
  , ⟨(Core, RightShoulder), 0.37, 0.075, true⟩
  , ⟨(RightShoulder, RightElbow), 0.29, 0.06, true⟩
  , ⟨(RightElbow, RightWrist), 0.27, 0.03, true⟩
  , ⟨(RightWrist, RightHand), 0.08, 0.02, true⟩
  , ⟨(RightHand, RightFingers), 0.08, 0.02, true⟩
  , ⟨(RightWrist, RightFingers), 0.14, 0.02, false⟩

  , ⟨(LeftShoulder, RightShoulder), 0.34, 0.1, false⟩
  , ⟨(LeftHip, RightHip), 0.22, 0.1, false⟩

  , ⟨(LeftShoulder, Neck), 0.175, 0.065, true⟩
  , ⟨(RightShoulder, Neck), 0.175, 0.065, true⟩
  , ⟨(Neck, Head), 0.165, 0.05, true⟩ ]

/-! ## Reorientations -/

/-- The geometry primitives of `math.hpp` used by `positions.hpp`, on a point type `V`
(`V3`) and a transform type `Ro` (`Reorientation`): `apply(Reorientation, V3)`,
`inverse(Reorientation)`, `compose(Reorientation, Reorientation)`, and the value
`{{0,0,0},0}` (zero offset, zero angle). -/
structure Geometry (V Ro : Type) where
  apply : Ro → V → V
  inverse : Ro → Ro
  compose : Ro → Ro → Ro
  zero : Ro

/-- The record `struct PositionReorientation`. -/
structure PositionReorientation (Ro : Type) where
  reorientation : Ro
  swap_players : Bool
  deriving DecidableEq

/-- The constructor `PositionReorientation(Reorientation r = {{0,0,0},0}, bool sp = false)`
called without arguments. -/
def PositionReorientation.default {V Ro : Type} (g : Geometry V Ro) :
    PositionReorientation Ro :=
  ⟨g.zero, false⟩

/-- The loop `for (auto j : js) p[j] = apply(r, p[j]);` of
`apply(Reorientation const &, Position)`, over the keys `js`. -/
def applyJoints {V Ro : Type} (g : Geometry V Ro) (r : Ro) :
    List PlayerJoint → Position V → Option (Position V)
  | [], p => some p
  | j :: js, p =>
    match p.get? j with
    | none => none
    | some v =>
      match p.set? j (g.apply r v) with
      | none => none
      | some q => applyJoints g r js q

/-- The function `apply(Reorientation const & r, Position p)`. -/
def applyReorientation {V Ro : Type} (g : Geometry V Ro) (r : Ro) (p : Position V) :
    Option (Position V) :=
  applyJoints g r playerJoints p

/-- The call `std::swap(p[0], p[1])`. -/
def swapPlayers {V : Type} (p : Position V) : Position V :=
  fun i => if i = 0 then p 1 else p 0

/-- The function `apply(PositionReorientation const & r, Position p)`. -/
def apply {V Ro : Type} (g : Geometry V Ro) (r : PositionReorientation Ro)
    (p : Position V) : Option (Position V) :=
  match applyReorientation g r.reorientation p with
  | none => none
  | some q => if r.swap_players then some (swapPlayers q) else some q

/-- The function `apply(PositionReorientation const & r, Position const & p, PlayerJoint j)`. -/
def applyAt {V Ro : Type} (g : Geometry V Ro) (r : PositionReorientation Ro)
    (p : Position V) (j : PlayerJoint) : Option V :=
  let j := if r.swap_players then { j with player := opponent j.player } else j
  match p.get? j with
  | none => none
  | some v => some (g.apply r.reorientation v)

/-- The function `inverse(PositionReorientation const r)`. -/
def inverse {V Ro : Type} (g : Geometry V Ro) (r : PositionReorientation Ro) :
    PositionReorientation Ro :=
  ⟨g.inverse r.reorientation, r.swap_players⟩

/-- The function `compose(PositionReorientation const a, PositionReorientation const b)`. -/
def compose {V Ro : Type} (g : Geometry V Ro) (a b : PositionReorientation Ro) :
    PositionReorientation Ro :=
  ⟨g.compose a.reorientation b.reorientation, a.swap_players != b.swap_players⟩

/-! ## A concrete geometry

Integer points with translations and quarter turns about the vertical axis; it is
used to evaluate the definitions on concrete inputs. -/

/-- A point with integer coordinates. -/
structure IPoint where
  x : Int
  y : Int
  z : Int
  deriving DecidableEq, Repr

/-- A transform: `turns` quarter turns about the y axis, then a translation by
`offset`. -/
structure ITurn where
  offset : IPoint
  turns : Fin 4
  deriving DecidableEq, Repr

/-- Rotation of a point by `n` quarter turns about the y axis. -/
def IPoint.rot : Nat → IPoint → IPoint
  | 0, v => v
  | n + 1, v => IPoint.rot n ⟨v.z, v.y, -v.x⟩

/-- Sum of two points. -/
def IPoint.add (a b : IPoint) : IPoint := ⟨a.x + b.x, a.y + b.y, a.z + b.z⟩

/-- Negation of a point. -/
def IPoint.neg (a : IPoint) : IPoint := ⟨-a.x, -a.y, -a.z⟩

/-- The geometry of quarter turns and integer translations: a transform rotates, then
translates; `compose a b` is `a` followed by `b`. -/
def turnGeometry : Geometry IPoint ITurn where
  apply t v := (IPoint.rot t.turns.val v).add t.offset
  inverse t := ⟨(IPoint.rot (-t.turns).val t.offset).neg, -t.turns⟩
  compose a b := ⟨(IPoint.rot b.turns.val a.offset).add b.offset, a.turns + b.turns⟩
  zero := ⟨⟨0, 0, 0⟩, 0⟩

/-- A sample position: joint `b` of player `a` sits at `(a, b, a + 2 b)`. -/
def samplePosition : Position IPoint :=
  fun a b => ⟨a.val, b.val, a.val + 2 * b.val⟩

/-- A sample reorientation: one quarter turn, a translation and a player swap. -/
def sampleReorientation : PositionReorientation ITurn :=
  ⟨⟨⟨1, 2, 3⟩, 1⟩, true⟩

/-- The quarter-turn geometry with the other composition order: `compose a b` is `b`
followed by `a`. -/
def turnGeometryRev : Geometry IPoint ITurn where
  apply := turnGeometry.apply
  inverse := turnGeometry.inverse
  compose a b := turnGeometry.compose b a
  zero := turnGeometry.zero

/-! ## Interpolation and comparison of positions -/

/-- The vector primitives of `math.hpp` used by `between` and `basicallySame`, on a point
type `V` (`V3`): `operator+`, `operator-`, `operator*(V3, double)` and
`distanceSquared`. Scalars (`double`) are read as exact rationals. -/
structure VectorOps (V : Type) where
  add : V → V → V
  sub : V → V → V
  mul : V → ℚ → V
  distanceSquared : V → V → ℚ

/-- The loop `for (auto j : js) r[j] = a[j] + (b[j] - a[j]) * s;` of `between`, over the
keys `js`. -/
def betweenJoints {V : Type} (o : VectorOps V) (a b : Position V) (s : ℚ) :
    List PlayerJoint → Position V → Option (Position V)
  | [], r => some r
  | j :: js, r =>
    match a.get? j, b.get? j with
    | some x, some y =>
      match r.set? j (o.add x (o.mul (o.sub y x) s)) with
      | none => none
      | some q => betweenJoints o a b s js q
    | _, _ => none

/-- The function `between(Position const & a, Position const & b, double s)`. The local
`Position r;` starts with indeterminate contents, here the argument `r`. -/
def between {V : Type} (o : VectorOps V) (r a b : Position V) (s : ℚ) :
    Option (Position V) :=
  betweenJoints o a b s playerJoints r

/-- The default value `0.5` of the parameter `s` of `between`. -/
def between_default_s : ℚ := 0.5

/-- The loop `for (auto j : js) u += distanceSquared(a[j], b[j]);` of `basicallySame`,
over the keys `js`, starting from the accumulator `u`, with exact numbers: the addition
is not rounded. The loop in `double` arithmetic is `sumDistancesDouble`. -/
def sumDistances {V : Type} (o : VectorOps V) (a b : Position V) :
    List PlayerJoint → ℚ → Option ℚ
  | [], u => some u
  | j :: js, u =>
    match a.get? j, b.get? j with
    | some x, some y => sumDistances o a b js (u + o.distanceSquared x y)
    | _, _ => none

/-- The function `basicallySame(Position const & a, Position const & b)` with exact
numbers: the accumulator is not rounded and `0.03` is 3/100. The function in `double`
arithmetic is `basicallySameDouble`. -/
def basicallySame {V : Type} (o : VectorOps V) (a b : Position V) : Option Bool :=
  match sumDistances o a b playerJoints 0 with
  | none => none
  | some u => some (decide (u < 0.03))

/-- Modelled from the spec: the type `V3` of `math.hpp`, which is not among the sources:
a 3D vector. Coordinates (`double`) are read as exact rationals. -/
structure V3 where
  x : ℚ
  y : ℚ
  z : ℚ
  deriving DecidableEq

/-- Modelled from the spec: `operator+` of `math.hpp` on 3D vectors, componentwise. -/
def V3.add (a b : V3) : V3 := ⟨a.x + b.x, a.y + b.y, a.z + b.z⟩

/-- Modelled from the spec: `operator-` of `math.hpp` on 3D vectors, componentwise. -/
def V3.sub (a b : V3) : V3 := ⟨a.x - b.x, a.y - b.y, a.z - b.z⟩

/-- Modelled from the spec: `operator*(V3, double)` of `math.hpp`, the multiplication of
every component by a scalar. -/
def V3.mul (a : V3) (s : ℚ) : V3 := ⟨a.x * s, a.y * s, a.z * s⟩

/-- Modelled from the spec: `distanceSquared` of `math.hpp`, the squared distance of two
3D points. -/
def distanceSquared (a b : V3) : ℚ :=
  (a.x - b.x) * (a.x - b.x) + (a.y - b.y) * (a.y - b.y) + (a.z - b.z) * (a.z - b.z)

/-- The vector primitives on `V3`. -/
def v3Ops : VectorOps V3 where
  add := V3.add
  sub := V3.sub
  mul := V3.mul
  distanceSquared := distanceSquared

/-- The position with every joint of both players at the point `(t, 0, 0)`. -/
def allAt (t : ℚ) : Position V3 := fun _ _ => ⟨t, 0, 0⟩

/-- A sample position of rational points: joint `b` of player `a` sits at
`(a, b / 10, 0)`. -/
def sampleV3Position : Position V3 :=
  fun a b => ⟨a.val, b.val / 10, 0⟩

/-! ## Comparison of positions in `double` arithmetic

A finite `double` is read as the rational number it stands for; an operation on doubles
is the exact operation followed by rounding. -/

/-- Rounding of a rational to the nearest integer, a tie going to the even integer. -/
def roundHalfEven (m : ℚ) : ℤ :=
  if m - ⌊m⌋ < 1 / 2 then ⌊m⌋
  else if 1 / 2 < m - ⌊m⌋ then ⌊m⌋ + 1
  else if ⌊m⌋ % 2 = 0 then ⌊m⌋ else ⌊m⌋ + 1

/-- The spacing of the doubles around `q` (IEEE binary64): 53 significant bits, and the
exponent of the leading bit at least -1022, below which the spacing stays 2^(-1074). -/
def doubleSpacing (q : ℚ) : ℚ :=
  (2 : ℚ) ^ (max (Int.log 2 |q|) (-1022) - 52)

/-- Rounding of an exact value to `double`: round to nearest, ties to even; `none` when
the rounded value is beyond the largest finite double (overflow). -/
def roundDouble (q : ℚ) : Option ℚ :=
  if q = 0 then some 0
  else if |(roundHalfEven (q / doubleSpacing q) : ℚ) * doubleSpacing q| < 2 ^ 1024 then
    some ((roundHalfEven (q / doubleSpacing q) : ℚ) * doubleSpacing q)
  else none

/-- The value of the `double` literal `0.03`: the double nearest to 3/100. -/
def double_0_03 : ℚ := 1080863910568919 / 36028797018963968

/-- The index of a joint into a `PerJoint` array: the value of the enumerator. -/
def Joint.toFin (j : Joint) : Fin joint_count :=
  ⟨j.toNat, by cases j <;> decide⟩

/-- The type `Player = PerJoint<V3>`, for a point type `V`. -/
abbrev Player (V : Type) := PerJoint V

/-- Modelled from the spec: the tunable parts of the relaxation solver `spring`, whose
body is not among the sources. `iterations` is the bounded number of passes over the
segment table. `both x y length` is the correction of a segment with both endpoints
free: the new places of the endpoints at `x` and `y`, the correction split between them
by the mass weighting. `single x y length` is the correction when the endpoint at `y`
is the fixed joint: the new place of the endpoint at `x`, which takes all of the
correction. -/
structure Relaxation (V : Type) where
  iterations : Nat
  both : V → V → ℚ → V × V
  single : V → V → ℚ → V

/-- Modelled from the spec: the correction of one segment on one skeleton. Both endpoints
move along the segment to reduce the length error; if one endpoint is the fixed joint,
only the other endpoint moves. -/
def relaxSegment {V : Type} (S : Relaxation V) (fixed_joint : Option Joint)
    (p : Player V) (s : Segment) : Player V :=
  let x := p s.ends.1.toFin
  let y := p s.ends.2.toFin
  if fixed_joint = some s.ends.1 then
    Function.update p s.ends.2.toFin (S.single y x s.length)
  else if fixed_joint = some s.ends.2 then
    Function.update p s.ends.1.toFin (S.single x y s.length)
  else
    Function.update (Function.update p s.ends.1.toFin (S.both x y s.length).1)
      s.ends.2.toFin (S.both x y s.length).2

/-- Modelled from the spec: `Player spring(Player const &, optional<Joint> fixed_joint)`,
declared in `positions.hpp` without a body: a bounded number of passes, each correcting
every segment in table order. -/
def spring {V : Type} (S : Relaxation V) (p : Player V) (fixed_joint : Option Joint) :
    Player V :=
  Nat.iterate (fun q => segments.foldl (relaxSegment S fixed_joint) q) S.iterations p

/-- Modelled from the spec: the fixed joint of one player's skeleton when the position
is solved with the fixed key `fixed`: the joint of the key if the key names this player,
none otherwise. -/
def fixedFor (fixed : Option PlayerJoint) (pl : Fin 2) : Option Joint :=
  match fixed with
  | none => none
  | some k => if k.player = pl.val then some k.joint else none

/-- Modelled from the spec: the correction of one segment on both players' skeletons. -/
def relaxSegmentBoth {V : Type} (S : Relaxation V) (fixed : Option PlayerJoint)
    (pos : Position V) (s : Segment) : Position V :=
  fun pl => relaxSegment S (fixedFor fixed pl) (pos pl) s

/-- Modelled from the spec: `void spring(Position &, optional<PlayerJoint>)`, declared in
`positions.hpp` without a body: the position after a bounded number of passes, each
correcting every segment in table order on both players. -/
def springPosition {V : Type} (S : Relaxation V) (pos : Position V)
    (fixed : Option PlayerJoint) : Position V :=
  Nat.iterate (fun q => segments.foldl (relaxSegmentBoth S fixed) q) S.iterations pos

/-- A sample solver on `V3`: three passes; a free endpoint moves a quarter of the way
towards the other endpoint, and half of the way when the other endpoint is fixed. -/
def sampleRelaxation : Relaxation V3 where
  iterations := 3
  both x y _ := (x.add ((y.sub x).mul (1 / 4)), y.add ((x.sub y).mul (1 / 4)))
  single x y _ := x.add ((y.sub x).mul (1 / 2))

/-! ## Left/right mirror images of segments -/

/-- The joint on the other side of the body: each `Left` joint is exchanged with its
`Right` counterpart, `Core`, `Neck` and `Head` are kept. -/
def Joint.mirror : Joint → Joint
  | LeftToe => RightToe | RightToe => LeftToe
  | LeftHeel => RightHeel | RightHeel => LeftHeel
  | LeftAnkle => RightAnkle | RightAnkle => LeftAnkle
  | LeftKnee => RightKnee | RightKnee => LeftKnee
  | LeftHip => RightHip | RightHip => LeftHip
  | LeftShoulder => RightShoulder | RightShoulder => LeftShoulder
  | LeftElbow => RightElbow | RightElbow => LeftElbow
  | LeftWrist => RightWrist | RightWrist => LeftWrist
  | LeftHand => RightHand | RightHand => LeftHand
  | LeftFingers => RightFingers | RightFingers => LeftFingers
  | Core => Core | Neck => Neck | Head => Head

/-- The segment `t` joins the mirror images of the ends of `s` (in either order) and has
the same rest length, midpoint radius and visibility as `s`. -/
def Segment.isMirrorOf (t s : Segment) : Prop :=
  (t.ends = (s.ends.1.mirror, s.ends.2.mirror) ∨ t.ends = (s.ends.2.mirror, s.ends.1.mirror))
    ∧ t.length = s.length ∧ t.midpointRadius = s.midpointRadius ∧ t.visible = s.visible

/-- The mirror image of a segment: both ends exchanged with their counterparts on the
other side, the other fields kept. -/
def Segment.mirror (s : Segment) : Segment :=
  ⟨(s.ends.1.mirror, s.ends.2.mirror), s.length, s.midpointRadius, s.visible⟩

/-- The mirror image of a segment with its two ends listed in the other order. -/
def Segment.mirrorFlip (s : Segment) : Segment :=
  ⟨(s.ends.2.mirror, s.ends.1.mirror), s.length, s.midpointRadius, s.visible⟩

/-! ## Auxiliary facts about lookups and the joint loop -/

/-- Every enumerator's value is a valid index into a `PerJoint` array. -/
theorem Joint.toNat_lt (j : Joint) : j.toNat < joint_count := by
  cases j <;> decide

/-- A lookup through a key with a valid player reads the slot of that key. -/
theorem get?_of_lt {T : Type} (p : PerPlayerJoint T) (i : PlayerJoint) (h : i.player < 2) :
    p.get? i = some (p ⟨i.player, h⟩ ⟨i.joint.toNat, i.joint.toNat_lt⟩) := by
  unfold PerPlayerJoint.get?
  rw [dif_pos ⟨h, i.joint.toNat_lt⟩]

/-- A store through a key with a valid player overwrites the slot of that key. -/
theorem set?_of_lt {T : Type} (p : PerPlayerJoint T) (i : PlayerJoint) (v : T)
    (h : i.player < 2) :
    p.set? i v = some (Function.update p ⟨i.player, h⟩
      (Function.update (p ⟨i.player, h⟩) ⟨i.joint.toNat, i.joint.toNat_lt⟩ v)) := by
  unfold PerPlayerJoint.set?
  rw [dif_pos ⟨h, i.joint.toNat_lt⟩]

/-- Reading a slot after a store to slot `(a, b)`. -/
theorem update_update_apply {T : Type} (p : PerPlayerJoint T) (a a' : Fin 2)
    (b b' : Fin joint_count) (v : T) :
    Function.update p a (Function.update (p a) b v) a' b'
      = if a' = a ∧ b' = b then v else p a' b' := by
  by_cases ha : a' = a
  · subst ha
    by_cases hb : b' = b
    · subst hb; simp
    · simp [hb]
  · simp [ha]

/-- The joint loop over keys with valid players and pairwise distinct slots succeeds and
transforms exactly the slots of its keys. -/
theorem applyJoints_eq {V Ro : Type} (g : Geometry V Ro) (r : Ro) :
    ∀ (js : List PlayerJoint) (p : Position V),
      (∀ k ∈ js, k.player < 2) → (js.map PlayerJoint.slot).Nodup →
      applyJoints g r js p
        = some (fun a b =>
            if (a.val, b.val) ∈ js.map PlayerJoint.slot then g.apply r (p a b) else p a b)
  | [], p, _, _ => by simp [applyJoints]
  | k :: ks, p, hv, hn => by
    have hk : k.player < 2 := hv k (List.mem_cons_self k ks)
    have hks : ∀ k' ∈ ks, k'.player < 2 := fun k' hk' => hv k' (List.mem_cons_of_mem k hk')
    rw [List.map_cons, List.nodup_cons] at hn
    rw [applyJoints, get?_of_lt p k hk]
    simp only []
    rw [set?_of_lt p k _ hk]
    simp only []
    rw [applyJoints_eq g r ks _ hks hn.2]
    congr 1
    funext a b
    rw [update_update_apply]
    by_cases hab : (a.val, b.val) = k.slot
    · have h1 : a = ⟨k.player, hk⟩ ∧ b = ⟨k.joint.toNat, k.joint.toNat_lt⟩ := by
        simp only [PlayerJoint.slot, Prod.mk.injEq] at hab
        exact ⟨Fin.ext hab.1, Fin.ext hab.2⟩
      have h2 : (a.val, b.val) ∉ ks.map PlayerJoint.slot := by rw [hab]; exact hn.1
      rw [if_neg h2, if_pos h1, List.map_cons, if_pos (by rw [hab]; exact List.mem_cons_self _ _)]
      rw [h1.1, h1.2]
    · have h1 : ¬ (a = ⟨k.player, hk⟩ ∧ b = ⟨k.joint.toNat, k.joint.toNat_lt⟩) := by
        rintro ⟨rfl, rfl⟩
        exact hab rfl
      have h2 : (a.val, b.val) ∈ k.slot :: ks.map PlayerJoint.slot
          ↔ (a.val, b.val) ∈ ks.map PlayerJoint.slot := by
        rw [List.mem_cons]
        exact ⟨fun h => h.resolve_left hab, Or.inr⟩
      rw [if_neg h1, List.map_cons]
      by_cases h3 : (a.val, b.val) ∈ ks.map PlayerJoint.slot
      · rw [if_pos h3, if_pos (h2.mpr h3)]
      · rw [if_neg h3, if_neg (fun h => h3 (h2.mp h))]

/-- Every key of `playerJoints` has a valid player. -/
theorem playerJoints_valid : ∀ k ∈ playerJoints, k.player < 2 := by decide

/-- No two keys of `playerJoints` address the same slot. -/
theorem playerJoints_nodup : (playerJoints.map PlayerJoint.slot).Nodup := by decide

/-- Every slot of a position is addressed by a key of `playerJoints`. -/
theorem playerJoints_complete (a : Fin 2) (b : Fin joint_count) :
    (a.val, b.val) ∈ playerJoints.map PlayerJoint.slot := by
  revert a b
  decide

/-- The function `apply(Reorientation, Position)` succeeds and transforms every entry. -/
theorem applyReorientation_eq {V Ro : Type} (g : Geometry V Ro) (r : Ro) (p : Position V) :
    applyReorientation g r p = some (fun a b => g.apply r (p a b)) := by
  unfold applyReorientation
  rw [applyJoints_eq g r playerJoints p playerJoints_valid playerJoints_nodup]
  congr 1
  funext a b
  rw [if_pos (playerJoints_complete a b)]

/-- The function `apply(PositionReorientation, Position)` in closed form. -/
theorem apply_eq {V Ro : Type} (g : Geometry V Ro) (r : PositionReorientation Ro)
    (p : Position V) :
    apply g r p = some (if r.swap_players
      then swapPlayers (fun a b => g.apply r.reorientation (p a b))
      else fun a b => g.apply r.reorientation (p a b)) := by
  unfold apply
  rw [applyReorientation_eq]
  cases r.swap_players <;> simp

/-- The swap of the two players' joint maps, entry by entry. -/
theorem swapPlayers_apply {V : Type} (p : Position V) (a : Fin 2) (b : Fin joint_count) :
    swapPlayers p a b = p (if a = 0 then 1 else 0) b := by
  unfold swapPlayers
  by_cases h : a = 0 <;> simp [h]

/-- Swapping the players twice gives the position back. -/
theorem swapPlayers_swapPlayers {V : Type} (p : Position V) :
    swapPlayers (swapPlayers p) = p := by
  funext a
  fin_cases a <;> simp [swapPlayers]

/-- On a valid player index `opponent` exchanges 0 and 1. -/
theorem opponent_of_lt (pl : PlayerNum) (h : pl < 2) :
    opponent pl = if pl = 0 then 1 else 0 := by
  interval_cases pl <;> decide

/-- On a valid player index `opponent` gives a valid player index. -/
theorem opponent_lt (pl : PlayerNum) (h : pl < 2) : opponent pl < 2 := by
  interval_cases pl <;> decide

/-! ## Facts about the concrete geometry -/

/-- In `turnGeometry` the inverse transform undoes the transform on every point. -/
theorem turnGeometry_inverse_apply (t : ITurn) (v : IPoint) :
    turnGeometry.apply (turnGeometry.inverse t) (turnGeometry.apply t v) = v := by
  obtain ⟨o, k⟩ := t
  fin_cases k <;>
    simp [turnGeometry, IPoint.rot, IPoint.add, IPoint.neg]

/-- In `turnGeometry` the zero transform fixes every point. -/
theorem turnGeometry_zero_apply (v : IPoint) : turnGeometry.apply turnGeometry.zero v = v := by
  simp [turnGeometry, IPoint.rot, IPoint.add]

/-- In `turnGeometry` the zero transform is neutral for `compose` on both sides. -/
theorem turnGeometry_zero_compose (x : ITurn) :
    turnGeometry.compose turnGeometry.zero x = x
      ∧ turnGeometry.compose x turnGeometry.zero = x := by
  obtain ⟨o, k⟩ := x
  constructor
  · fin_cases k <;> simp [turnGeometry, IPoint.rot, IPoint.add]
  · simp [turnGeometry, IPoint.rot, IPoint.add]

/-- In `turnGeometry` the operation `compose` is associative. -/
theorem turnGeometry_compose_assoc (x y z : ITurn) :
    turnGeometry.compose x (turnGeometry.compose y z)
      = turnGeometry.compose (turnGeometry.compose x y) z := by
  obtain ⟨ox, kx⟩ := x
  obtain ⟨oy, ky⟩ := y
  obtain ⟨oz, kz⟩ := z
  have hk : kx + (ky + kz) = kx + ky + kz := by ring
  fin_cases ky <;> fin_cases kz <;>
    simp [turnGeometry, IPoint.rot, IPoint.add, hk, add_assoc] <;> omega

/-! ## The reorientation algebra -/

/-- C1, transform round-trip: if the geometry's `inverse` undoes its `apply` on every
point, then for every reorientation `r` (either swap flag) and every position `p`,
applying `r` and then `inverse r` succeeds and gives back `p`. -/
theorem apply_inverse_apply {V Ro : Type} (g : Geometry V Ro)
    (hinv : ∀ (t : Ro) (v : V), g.apply (g.inverse t) (g.apply t v) = v)
    (r : PositionReorientation Ro) (p : Position V) :
    (apply g r p).bind (apply g (inverse g r)) = some p := by
  rw [apply_eq, Option.some_bind, apply_eq]
  congr 1
  obtain ⟨t, sw⟩ := r
  cases sw
  · funext a b
    simp [inverse, hinv]
  · funext a b
    simp only [inverse, if_true, swapPlayers_apply, hinv]
    fin_cases a <;> simp

/-- Witness for C1 in the quarter-turn geometry, at a swapping reorientation. -/
theorem apply_inverse_apply_witness :
    (∀ (t : ITurn) (v : IPoint),
        turnGeometry.apply (turnGeometry.inverse t) (turnGeometry.apply t v) = v)
      ∧ (apply turnGeometry sampleReorientation samplePosition).bind
          (apply turnGeometry (inverse turnGeometry sampleReorientation))
        = some samplePosition :=
  ⟨turnGeometry_inverse_apply,
    apply_inverse_apply turnGeometry turnGeometry_inverse_apply sampleReorientation
      samplePosition⟩

/-- C2, `compose`: the spatial component of `compose a b` is the geometry's `compose` of
the two spatial components, its swap flag is the exclusive or of the two swap flags, and
composing two swapping reorientations gives a non-swapping one. -/
theorem compose_spec {V Ro : Type} (g : Geometry V Ro) (a b : PositionReorientation Ro) :
    (compose g a b).reorientation = g.compose a.reorientation b.reorientation
      ∧ (compose g a b).swap_players = xor a.swap_players b.swap_players
      ∧ (compose g (PositionReorientation.mk a.reorientation true)
          (PositionReorientation.mk b.reorientation true)).swap_players = false := by
  refine ⟨rfl, ?_, rfl⟩
  unfold compose
  cases a.swap_players <;> cases b.swap_players <;> rfl

/-- C3, `apply` on a whole position: for a player `pl` in {0, 1} and a joint `j`, the
call succeeds and the entry of the result at `(pl, j)` is the spatial transform of the
entry of `p` at `(q, j)`, where `q` is `opponent pl` when the swap flag is set and `pl`
otherwise. -/
theorem apply_entry {V Ro : Type} (g : Geometry V Ro) (r : PositionReorientation Ro)
    (p : Position V) (pl : PlayerNum) (j : Joint) (hpl : pl < 2) :
    ∃ (q : Position V) (v : V),
      apply g r p = some q
        ∧ p.get? ⟨if r.swap_players then opponent pl else pl, j⟩ = some v
        ∧ q.get? ⟨pl, j⟩ = some (g.apply r.reorientation v) := by
  obtain ⟨t, sw⟩ := r
  have h01 : pl = 0 ∨ pl = 1 := by
    interval_cases pl
    · exact Or.inl rfl
    · exact Or.inr rfl
  cases sw
  · refine ⟨_, _, apply_eq g ⟨t, false⟩ p, get?_of_lt p ⟨pl, j⟩ hpl, ?_⟩
    rw [get?_of_lt _ ⟨pl, j⟩ hpl]
    rfl
  · refine ⟨_, _, apply_eq g ⟨t, true⟩ p, get?_of_lt p ⟨opponent pl, j⟩ (opponent_lt pl hpl), ?_⟩
    rw [get?_of_lt _ ⟨pl, j⟩ hpl]
    rcases h01 with rfl | rfl
    · rfl
    · rfl

/-- Witness for C3: player 0, joint `LeftHeel`, under the sample swapping reorientation. -/
theorem apply_entry_witness :
    (0 : PlayerNum) < 2
      ∧ ∃ (q : Position IPoint) (v : IPoint),
          apply turnGeometry sampleReorientation samplePosition = some q
            ∧ samplePosition.get?
                ⟨if sampleReorientation.swap_players then opponent 0 else 0, LeftHeel⟩ = some v
            ∧ q.get? ⟨0, LeftHeel⟩
                = some (turnGeometry.apply sampleReorientation.reorientation v) :=
  ⟨by decide, apply_entry turnGeometry sampleReorientation samplePosition 0 LeftHeel (by decide)⟩

/-- C4, the single-joint variant agrees with the whole-position variant: for a key `j`
with `j.player` in {0, 1}, both calls succeed and `apply(r, p, j)` is the entry at `j`
of `apply(r, p)`. -/
theorem applyAt_eq_apply_get {V Ro : Type} (g : Geometry V Ro)
    (r : PositionReorientation Ro) (p : Position V) (j : PlayerJoint) (hj : j.player < 2) :
    ∃ (q : Position V) (v : V),
      apply g r p = some q ∧ q.get? j = some v ∧ applyAt g r p j = some v := by
  obtain ⟨t, sw⟩ := r
  obtain ⟨pl, jt⟩ := j
  have hpl : pl < 2 := hj
  cases sw
  · refine ⟨_, _, apply_eq g ⟨t, false⟩ p, get?_of_lt _ ⟨pl, jt⟩ hpl, ?_⟩
    unfold applyAt
    simp only [Bool.false_eq_true, if_false]
    rw [get?_of_lt p ⟨pl, jt⟩ hpl]
  · refine ⟨_, _, apply_eq g ⟨t, true⟩ p, get?_of_lt _ ⟨pl, jt⟩ hpl, ?_⟩
    unfold applyAt
    simp only [if_true]
    rw [get?_of_lt p ⟨opponent pl, jt⟩ (opponent_lt pl hpl)]
    have h01 : pl = 0 ∨ pl = 1 := by
      interval_cases pl
      · exact Or.inl rfl
      · exact Or.inr rfl
    rcases h01 with rfl | rfl
    · rfl
    · rfl

/-- Witness for C4: the key (1, `Head`) under the sample swapping reorientation. -/
theorem applyAt_eq_apply_get_witness :
    (PlayerJoint.mk 1 Head).player < 2
      ∧ ∃ (q : Position IPoint) (v : IPoint),
          apply turnGeometry sampleReorientation samplePosition = some q
            ∧ q.get? ⟨1, Head⟩ = some v
            ∧ applyAt turnGeometry sampleReorientation samplePosition ⟨1, Head⟩ = some v :=
  ⟨by decide,
    applyAt_eq_apply_get turnGeometry sampleReorientation samplePosition ⟨1, Head⟩ (by decide)⟩

/-- C5, swap involution: if the spatial transform `t` maps every point to itself, then
applying the swap-only reorientation `(t, true)` twice succeeds and returns the position
it started from. -/
theorem swap_only_twice {V Ro : Type} (g : Geometry V Ro) (t : Ro)
    (hid : ∀ v : V, g.apply t v = v) (p : Position V) :
    (apply g ⟨t, true⟩ p).bind (apply g ⟨t, true⟩) = some p := by
  rw [apply_eq, Option.some_bind, apply_eq]
  congr 1
  funext a b
  simp only [if_true, swapPlayers_apply, hid]
  fin_cases a <;> simp

/-- Witness for C5: the zero transform of the quarter-turn geometry with the swap flag. -/
theorem swap_only_twice_witness :
    (∀ v : IPoint, turnGeometry.apply turnGeometry.zero v = v)
      ∧ (apply turnGeometry ⟨turnGeometry.zero, true⟩ samplePosition).bind
          (apply turnGeometry ⟨turnGeometry.zero, true⟩) = some samplePosition :=
  ⟨turnGeometry_zero_apply,
    swap_only_twice turnGeometry turnGeometry.zero turnGeometry_zero_apply samplePosition⟩

/-- C6, `inverse`: the spatial component of `inverse r` is the geometry's inverse of the
spatial component of `r`, and the swap flag is the one of `r`. -/
theorem inverse_spec {V Ro : Type} (g : Geometry V Ro) (r : PositionReorientation Ro) :
    (inverse g r).reorientation = g.inverse r.reorientation
      ∧ (inverse g r).swap_players = r.swap_players :=
  ⟨rfl, rfl⟩

/-- C7, composition identity: if the zero spatial transform is neutral for the geometry's
`compose`, the default-constructed reorientation is a two-sided identity for `compose`. -/
theorem compose_default {V Ro : Type} (g : Geometry V Ro)
    (hzero : ∀ x : Ro, g.compose g.zero x = x ∧ g.compose x g.zero = x)
    (r : PositionReorientation Ro) :
    compose g (PositionReorientation.default g) r = r
      ∧ compose g r (PositionReorientation.default g) = r := by
  obtain ⟨t, sw⟩ := r
  constructor
  · simp [compose, PositionReorientation.default, (hzero t).1]
  · simp [compose, PositionReorientation.default, (hzero t).2]

/-- Witness for C7 in the quarter-turn geometry. -/
theorem compose_default_witness :
    (∀ x : ITurn, turnGeometry.compose turnGeometry.zero x = x
        ∧ turnGeometry.compose x turnGeometry.zero = x)
      ∧ compose turnGeometry (PositionReorientation.default turnGeometry) sampleReorientation
          = sampleReorientation
      ∧ compose turnGeometry sampleReorientation (PositionReorientation.default turnGeometry)
          = sampleReorientation :=
  ⟨turnGeometry_zero_compose,
    compose_default turnGeometry turnGeometry_zero_compose sampleReorientation⟩

/-- C8, composition associativity: if the geometry's `compose` is associative, then
`compose a (compose b c)` and `compose (compose a b) c` have the same spatial component
and the same swap flag. -/
theorem compose_assoc {V Ro : Type} (g : Geometry V Ro)
    (hassoc : ∀ x y z : Ro, g.compose x (g.compose y z) = g.compose (g.compose x y) z)
    (a b c : PositionReorientation Ro) :
    (compose g a (compose g b c)).reorientation
        = (compose g (compose g a b) c).reorientation
      ∧ (compose g a (compose g b c)).swap_players
        = (compose g (compose g a b) c).swap_players := by
  constructor
  · exact hassoc a.reorientation b.reorientation c.reorientation
  · unfold compose
    cases a.swap_players <;> cases b.swap_players <;> cases c.swap_players <;> rfl

/-- Witness for C8 in the quarter-turn geometry. -/
theorem compose_assoc_witness :
    (∀ x y z : ITurn, turnGeometry.compose x (turnGeometry.compose y z)
        = turnGeometry.compose (turnGeometry.compose x y) z)
      ∧ (compose turnGeometry sampleReorientation
          (compose turnGeometry ⟨⟨⟨0, 1, 0⟩, 3⟩, false⟩ sampleReorientation)).reorientation
        = (compose turnGeometry
            (compose turnGeometry sampleReorientation ⟨⟨⟨0, 1, 0⟩, 3⟩, false⟩)
            sampleReorientation).reorientation
      ∧ (compose turnGeometry sampleReorientation
          (compose turnGeometry ⟨⟨⟨0, 1, 0⟩, 3⟩, false⟩ sampleReorientation)).swap_players
        = (compose turnGeometry
            (compose turnGeometry sampleReorientation ⟨⟨⟨0, 1, 0⟩, 3⟩, false⟩)
            sampleReorientation).swap_players :=
  ⟨turnGeometry_compose_assoc,
    compose_assoc turnGeometry turnGeometry_compose_assoc sampleReorientation
      ⟨⟨⟨0, 1, 0⟩, 3⟩, false⟩ sampleReorientation⟩

/-! ## The segment table -/

/-- C9 as stated fails: the number of segments marked not visible is not 3. -/
theorem hidden_segments_not_three :
    (segments.filter (fun s => !s.visible)).length ≠ 3 := by
  decide

/-- C9, amended: the table has exactly 4 segments marked not visible, in table order the
left wrist-to-fingers, the right wrist-to-fingers, the shoulder-to-shoulder and the
hip-to-hip segment, and every other segment of the table is marked visible. -/
theorem hidden_segments :
    (segments.filter (fun s => !s.visible)).map (fun s => s.ends)
        = [(LeftWrist, LeftFingers), (RightWrist, RightFingers),
            (LeftShoulder, RightShoulder), (LeftHip, RightHip)]
      ∧ ∀ s ∈ segments,
          s.ends ∉ [(LeftWrist, LeftFingers), (RightWrist, RightFingers),
            (LeftShoulder, RightShoulder), (LeftHip, RightHip)] → s.visible = true := by
  constructor <;> decide

/-- Witness for C9: the hip-to-core segment is in the table, is not one of the four
pairs, and is visible. -/
theorem hidden_segments_witness :
    (Segment.mk (LeftHip, Core) 0.27 0.1 true) ∈ segments
      ∧ (LeftHip, Core) ∉ [(LeftWrist, LeftFingers), (RightWrist, RightFingers),
            (LeftShoulder, RightShoulder), (LeftHip, RightHip)]
      ∧ (Segment.mk (LeftHip, Core) 0.27 0.1 true).visible = true :=
  ⟨by simp [segments], by decide,
    hidden_segments.2 (Segment.mk (LeftHip, Core) 0.27 0.1 true) (by simp [segments])
      (by decide)⟩

/-- C10: the segment table has exactly 29 entries, and every entry has a rest length
strictly greater than 0 and two distinct end joints. -/
theorem segments_wellformed :
    segments.length = 29 ∧ ∀ s ∈ segments, 0 < s.length ∧ s.ends.1 ≠ s.ends.2 := by
  constructor
  · decide
  · intro s hs
    simp only [segments, List.mem_cons, List.mem_singleton, List.not_mem_nil, or_false] at hs
    rcases hs with h | h | h | h | h | h | h | h | h | h | h | h | h | h | h | h | h | h | h
      | h | h | h | h | h | h | h | h | h | h <;>
    · subst h
      exact ⟨by norm_num, by decide⟩

/-- Witness for C10: the neck-to-head segment is in the table, its rest length is
positive and its ends differ. -/
theorem segments_wellformed_witness :
    (Segment.mk (Neck, Head) 0.165 0.05 true) ∈ segments
      ∧ 0 < (Segment.mk (Neck, Head) 0.165 0.05 true).length
      ∧ (Segment.mk (Neck, Head) 0.165 0.05 true).ends.1
          ≠ (Segment.mk (Neck, Head) 0.165 0.05 true).ends.2 :=
  ⟨by simp [segments],
    segments_wellformed.2 (Segment.mk (Neck, Head) 0.165 0.05 true) (by simp [segments])⟩

/-! ## Comparison of positions -/

/-- The joints of the array `joints`, read as array indices, are all the indices in
order. -/
theorem joints_map_toFin {α : Type} (F : Fin joint_count → α) :
    joints.map (fun j => F j.toFin) = List.ofFn F := by
  rfl

/-- The distance loop over two lists of keys, one after the other. -/
theorem sumDistances_append {V : Type} (o : VectorOps V) (a b : Position V) :
    ∀ (js ks : List PlayerJoint) (u : ℚ),
      sumDistances o a b (js ++ ks) u
        = (sumDistances o a b js u).bind (sumDistances o a b ks)
  | [], ks, u => by simp [sumDistances]
  | j :: js, ks, u => by
    rw [List.cons_append, sumDistances, sumDistances]
    cases a.get? j <;> cases b.get? j <;> simp [sumDistances_append o a b js ks]

/-- The distance loop over the keys of one player succeeds and adds up the squared
distances of that player's joints. -/
theorem sumDistances_player {V : Type} (o : VectorOps V) (a b : Position V) (pl : Fin 2) :
    ∀ (js : List Joint) (u : ℚ),
      sumDistances o a b (js.map (fun j => PlayerJoint.mk pl.val j)) u
        = some (u + (js.map
            (fun j => o.distanceSquared (a pl j.toFin) (b pl j.toFin))).sum)
  | [], u => by simp [sumDistances]
  | j :: js, u => by
    rw [List.map_cons, sumDistances, get?_of_lt a ⟨pl.val, j⟩ pl.isLt,
      get?_of_lt b ⟨pl.val, j⟩ pl.isLt]
    simp only []
    rw [sumDistances_player o a b pl js, List.map_cons, List.sum_cons, add_assoc]
    rfl

/-- The accumulator of `basicallySame` in closed form: the sum over all slots. -/
theorem sumDistances_playerJoints {V : Type} (o : VectorOps V) (a b : Position V) :
    sumDistances o a b playerJoints 0
      = some (∑ i : Fin 2, ∑ j : Fin joint_count, o.distanceSquared (a i j) (b i j)) := by
  have h0 := sumDistances_player o a b 0 joints 0
  have h1 := sumDistances_player o a b 1 joints
  rw [joints_map_toFin (fun j => o.distanceSquared (a 0 j) (b 0 j)), List.sum_ofFn] at h0
  simp only [joints_map_toFin (fun j => o.distanceSquared (a 1 j) (b 1 j)),
    List.sum_ofFn] at h1
  unfold playerJoints
  rw [sumDistances_append]
  erw [h0]
  rw [Option.some_bind]
  erw [h1]
  rw [Fin.sum_univ_two, zero_add]

/-- C12: the joint enumeration has 23 members with ordinals 0..22 in declaration order
(`joint_count` is 23, the entries of `joints` have the ordinals 0, 1, ..., 22, and every
joint occurs in `joints`), so for a key with player in {0, 1} the joint ordinal is a valid
index, the lookup into a position succeeds, and the key space has 2 × 23 = 46 elements. -/
theorem joint_ordinals {T : Type} (p : PerPlayerJoint T) (k : PlayerJoint)
    (hk : k.player < 2) :
    joint_count = 23
      ∧ joints.map Joint.toNat = List.range 23
      ∧ (∀ j : Joint, j ∈ joints)
      ∧ k.joint.toNat < joint_count
      ∧ (∃ v, p.get? k = some v)
      ∧ joint_count * 2 = 46
      ∧ Fintype.card (Fin 2 × Fin joint_count) = 46 := by
  refine ⟨by decide, by decide, ?_, k.joint.toNat_lt, ⟨_, get?_of_lt p k hk⟩, by decide,
    by decide⟩
  intro j
  cases j <;> decide

/-- Witness for C12: the key (1, `Head`) of the sample position. -/
theorem joint_ordinals_witness :
    (PlayerJoint.mk 1 Head).player < 2
      ∧ joint_count = 23
      ∧ joints.map Joint.toNat = List.range 23
      ∧ (∀ j : Joint, j ∈ joints)
      ∧ (PlayerJoint.mk 1 Head).joint.toNat < joint_count
      ∧ (∃ v, samplePosition.get? ⟨1, Head⟩ = some v)
      ∧ joint_count * 2 = 46
      ∧ Fintype.card (Fin 2 × Fin joint_count) = 46 :=
  ⟨by decide, joint_ordinals samplePosition ⟨1, Head⟩ (by decide)⟩

/-- The arithmetic of `1 - p` on 32-bit unsigned numbers: subtracting twice gives `p`
back, and the result is below 2 exactly when `p` is. -/
theorem wrap_sub_facts (p : Nat) (hp : p < 4294967296) :
    (4294967296 + 1 - ((4294967296 + 1 - p % 4294967296) % 4294967296) % 4294967296)
        % 4294967296 = p
      ∧ ((4294967296 + 1 - p % 4294967296) % 4294967296 < 2 ↔ p < 2)
      ∧ (4294967296 + 1 - p % 4294967296) % 4294967296 < 4294967296 := by
  omega

/-- C17: on 32-bit unsigned player numbers `opponent` is an involution, `opponent p` is a
valid player index exactly when `p` is, and `opponent` exchanges 0 and 1. -/
theorem opponent_involution (p : PlayerNum) (hp : p < 4294967296) :
    opponent (opponent p) = p
      ∧ (opponent p < 2 ↔ p < 2)
      ∧ opponent p < 4294967296
      ∧ opponent 0 = 1 ∧ opponent 1 = 0 := by
  have hw := wrap_sub_facts p hp
  exact ⟨hw.1, hw.2.1, hw.2.2, by decide, by decide⟩

/-- Witness for C17: the largest 32-bit player number, which `opponent` maps to 2. -/
theorem opponent_involution_witness :
    (4294967295 : PlayerNum) < 4294967296
      ∧ opponent (opponent 4294967295) = 4294967295
      ∧ (opponent 4294967295 < 2 ↔ (4294967295 : PlayerNum) < 2)
      ∧ opponent 4294967295 < 4294967296
      ∧ opponent 0 = 1 ∧ opponent 1 = 0 :=
  ⟨by decide, opponent_involution 4294967295 (by decide)⟩

/-! ## Composition and application -/

/-- In `turnGeometry` the transform `compose x y` acts as `x` followed by `y`. -/
theorem turnGeometry_apply_compose (x y : ITurn) (v : IPoint) :
    turnGeometry.apply (turnGeometry.compose x y) v
      = turnGeometry.apply y (turnGeometry.apply x v) := by
  obtain ⟨ox, kx⟩ := x
  obtain ⟨oy, ky⟩ := y
  fin_cases kx <;> fin_cases ky <;>
    simp [turnGeometry, IPoint.rot, IPoint.add, add_assoc] <;> omega

/-- In `turnGeometryRev` the transform `compose x y` acts as `y` followed by `x`. -/
theorem turnGeometryRev_apply_compose (x y : ITurn) (v : IPoint) :
    turnGeometryRev.apply (turnGeometryRev.compose x y) v
      = turnGeometryRev.apply x (turnGeometryRev.apply y v) :=
  turnGeometry_apply_compose y x v

/-- C15: `compose` is compatible with `apply` on positions. If the geometry's
`compose x y` acts on points as `x` followed by `y`, then applying `compose a b` to a
position succeeds and is applying `a` and then `b`; if it acts as `y` followed by `x`,
then applying `compose a b` is applying `b` and then `a`. This holds for all swap
flags. -/
theorem apply_compose {V Ro : Type} (g : Geometry V Ro) (a b : PositionReorientation Ro)
    (p : Position V) :
    ((∀ (x y : Ro) (v : V), g.apply (g.compose x y) v = g.apply y (g.apply x v)) →
        ∃ q, apply g (compose g a b) p = some q ∧ (apply g a p).bind (apply g b) = some q)
      ∧ ((∀ (x y : Ro) (v : V), g.apply (g.compose x y) v = g.apply x (g.apply y v)) →
        ∃ q, apply g (compose g a b) p = some q
          ∧ (apply g b p).bind (apply g a) = some q) := by
  obtain ⟨ta, sa⟩ := a
  obtain ⟨tb, sb⟩ := b
  constructor
  · intro h
    refine ⟨_, apply_eq g _ p, ?_⟩
    rw [apply_eq, Option.some_bind, apply_eq]
    congr 1
    cases sa <;> cases sb <;> funext i j <;>
      simp only [compose, swapPlayers_apply, h, if_true, if_false, Bool.false_eq_true,
        bne_self_eq_false, Bool.true_bne, Bool.false_bne, Bool.not_false, Bool.not_true]
    fin_cases i <;> rfl
  · intro h
    refine ⟨_, apply_eq g _ p, ?_⟩
    rw [apply_eq, Option.some_bind, apply_eq]
    congr 1
    cases sa <;> cases sb <;> funext i j <;>
      simp only [compose, swapPlayers_apply, h, if_true, if_false, Bool.false_eq_true,
        bne_self_eq_false, Bool.true_bne, Bool.false_bne, Bool.not_false, Bool.not_true]
    fin_cases i <;> rfl

/-- Witness for C15: the quarter-turn geometry for the first composition order, the
same geometry with `compose` reversed for the second. -/
theorem apply_compose_witness :
    (∀ (x y : ITurn) (v : IPoint), turnGeometry.apply (turnGeometry.compose x y) v
        = turnGeometry.apply y (turnGeometry.apply x v))
      ∧ (∃ q, apply turnGeometry
            (compose turnGeometry sampleReorientation ⟨⟨⟨0, 1, 0⟩, 3⟩, false⟩)
            samplePosition = some q
          ∧ (apply turnGeometry sampleReorientation samplePosition).bind
              (apply turnGeometry ⟨⟨⟨0, 1, 0⟩, 3⟩, false⟩) = some q)
      ∧ (∀ (x y : ITurn) (v : IPoint), turnGeometryRev.apply (turnGeometryRev.compose x y) v
        = turnGeometryRev.apply x (turnGeometryRev.apply y v))
      ∧ (∃ q, apply turnGeometryRev
            (compose turnGeometryRev sampleReorientation ⟨⟨⟨0, 1, 0⟩, 3⟩, false⟩)
            samplePosition = some q
          ∧ (apply turnGeometryRev ⟨⟨⟨0, 1, 0⟩, 3⟩, false⟩ samplePosition).bind
              (apply turnGeometryRev sampleReorientation) = some q) :=
  ⟨turnGeometry_apply_compose,
    (apply_compose turnGeometry sampleReorientation ⟨⟨⟨0, 1, 0⟩, 3⟩, false⟩
      samplePosition).1 turnGeometry_apply_compose,
    turnGeometryRev_apply_compose,
    (apply_compose turnGeometryRev sampleReorientation ⟨⟨⟨0, 1, 0⟩, 3⟩, false⟩
      samplePosition).2 turnGeometryRev_apply_compose⟩

/-! ## Interpolation -/

/-- The loop of `between` over keys with valid players succeeds and writes the
interpolated point into exactly the slots of its keys. -/
theorem betweenJoints_eq {V : Type} (o : VectorOps V) (a b : Position V) (s : ℚ) :
    ∀ (js : List PlayerJoint) (r : Position V),
      (∀ k ∈ js, k.player < 2) →
      betweenJoints o a b s js r
        = some (fun i j =>
            if (i.val, j.val) ∈ js.map PlayerJoint.slot
            then o.add (a i j) (o.mul (o.sub (b i j) (a i j)) s) else r i j)
  | [], r, _ => by simp [betweenJoints]
  | k :: ks, r, hv => by
    have hk : k.player < 2 := hv k (List.mem_cons_self k ks)
    have hks : ∀ k' ∈ ks, k'.player < 2 := fun k' hk' => hv k' (List.mem_cons_of_mem k hk')
    rw [betweenJoints, get?_of_lt a k hk, get?_of_lt b k hk]
    simp only []
    rw [set?_of_lt r k _ hk]
    simp only []
    rw [betweenJoints_eq o a b s ks _ hks]
    congr 1
    funext i j
    rw [update_update_apply, List.map_cons]
    by_cases hab : (i.val, j.val) = k.slot
    · have h1 : i = ⟨k.player, hk⟩ ∧ j = ⟨k.joint.toNat, k.joint.toNat_lt⟩ := by
        simp only [PlayerJoint.slot, Prod.mk.injEq] at hab
        exact ⟨Fin.ext hab.1, Fin.ext hab.2⟩
      have h2 : (i.val, j.val) ∈ k.slot :: ks.map PlayerJoint.slot := by
        rw [hab]
        exact List.mem_cons_self _ _
      rw [if_pos h1, if_pos h2, h1.1, h1.2]
      split <;> rfl
    · have h1 : ¬ (i = ⟨k.player, hk⟩ ∧ j = ⟨k.joint.toNat, k.joint.toNat_lt⟩) := by
        rintro ⟨rfl, rfl⟩
        exact hab rfl
      have h2 : (i.val, j.val) ∈ k.slot :: ks.map PlayerJoint.slot
          ↔ (i.val, j.val) ∈ ks.map PlayerJoint.slot := by
        rw [List.mem_cons]
        exact ⟨fun h => h.resolve_left hab, Or.inr⟩
      rw [if_neg h1]
      by_cases h3 : (i.val, j.val) ∈ ks.map PlayerJoint.slot
      · rw [if_pos h3, if_pos (h2.mpr h3)]
      · rw [if_neg h3, if_neg (fun h => h3 (h2.mp h))]

/-- The function `between` succeeds, and every entry of its result is the interpolated
point, whatever the initial contents of the result. -/
theorem between_eq {V : Type} (o : VectorOps V) (r a b : Position V) (s : ℚ) :
    between o r a b s
      = some (fun i j => o.add (a i j) (o.mul (o.sub (b i j) (a i j)) s)) := by
  unfold between
  rw [betweenJoints_eq o a b s playerJoints r playerJoints_valid]
  congr 1
  funext i j
  rw [if_pos (playerJoints_complete i j)]

/-- C19: `between` is per-joint linear interpolation. For a key `k` with a valid player
the entry of `between(a, b, s)` at `k` is `a[k] + (b[k] - a[k]) * s`; with exact
coordinates `between(a, b, 0)` is `a`, `between(a, b, 1)` is `b`, the default `s = 0.5`
gives the midpoint `(a[k] + b[k]) * 0.5` in every slot, and so `between(a, b)` is
`between(b, a)`. -/
theorem between_spec (r r' a b : Position V3) (s : ℚ) (k : PlayerJoint)
    (hk : k.player < 2) :
    (∃ q x y, between v3Ops r a b s = some q ∧ a.get? k = some x ∧ b.get? k = some y
        ∧ q.get? k = some (x.add ((y.sub x).mul s)))
      ∧ between v3Ops r a b 0 = some a
      ∧ between v3Ops r a b 1 = some b
      ∧ between v3Ops r a b between_default_s
          = some (fun i j => ((a i j).add (b i j)).mul 0.5)
      ∧ between v3Ops r a b between_default_s = between v3Ops r' b a between_default_s := by
  refine ⟨⟨_, _, _, between_eq v3Ops r a b s, get?_of_lt a k hk, get?_of_lt b k hk, ?_⟩,
    ?_, ?_, ?_, ?_⟩
  · rw [get?_of_lt _ k hk]
    rfl
  · rw [between_eq]
    congr 1
    funext i j
    simp [v3Ops, V3.add, V3.sub, V3.mul]
  · rw [between_eq]
    congr 1
    funext i j
    simp [v3Ops, V3.add, V3.sub, V3.mul]
  · rw [between_eq]
    congr 1
    funext i j
    simp only [v3Ops, V3.add, V3.sub, V3.mul, between_default_s, V3.mk.injEq]
    refine ⟨?_, ?_, ?_⟩ <;> ring
  · rw [between_eq, between_eq]
    congr 1
    funext i j
    simp only [v3Ops, V3.add, V3.sub, V3.mul, between_default_s, V3.mk.injEq]
    refine ⟨?_, ?_, ?_⟩ <;> ring

/-- Witness for C19: the key (1, `Head`), between the all-zero position and the sample
position, with the parameter 1/4. -/
theorem between_spec_witness :
    (PlayerJoint.mk 1 Head).player < 2
      ∧ (∃ q x y, between v3Ops (allAt 7) (allAt 0) sampleV3Position (1 / 4) = some q
          ∧ (allAt 0).get? ⟨1, Head⟩ = some x ∧ sampleV3Position.get? ⟨1, Head⟩ = some y
          ∧ q.get? ⟨1, Head⟩ = some (x.add ((y.sub x).mul (1 / 4))))
      ∧ between v3Ops (allAt 7) (allAt 0) sampleV3Position 0 = some (allAt 0)
      ∧ between v3Ops (allAt 7) (allAt 0) sampleV3Position 1 = some sampleV3Position
      ∧ between v3Ops (allAt 7) (allAt 0) sampleV3Position between_default_s
          = some (fun i j => (((allAt 0) i j).add (sampleV3Position i j)).mul 0.5)
      ∧ between v3Ops (allAt 7) (allAt 0) sampleV3Position between_default_s
          = between v3Ops (allAt 9) sampleV3Position (allAt 0) between_default_s :=
  ⟨by decide,
    between_spec (allAt 7) (allAt 9) (allAt 0) sampleV3Position (1 / 4) ⟨1, Head⟩ (by decide)⟩

/-! ## The tolerance relation -/

/-- The function `basicallySame` in closed form. -/
theorem basicallySame_eq {V : Type} (o : VectorOps V) (a b : Position V) :
    basicallySame o a b
      = some (decide (∑ i : Fin 2, ∑ j : Fin joint_count,
          o.distanceSquared (a i j) (b i j) < 0.03)) := by
  unfold basicallySame
  rw [sumDistances_playerJoints]

/-- The squared distance of a point to itself is zero. -/
theorem distanceSquared_self (v : V3) : distanceSquared v v = 0 := by
  simp [distanceSquared]

/-- The squared distance is symmetric. -/
theorem distanceSquared_comm (v w : V3) : distanceSquared v w = distanceSquared w v := by
  unfold distanceSquared
  ring

/-- The sum of squared distances between two positions with all joints at `(s, 0, 0)` and
at `(t, 0, 0)`. -/
theorem sum_distanceSquared_allAt (s t : ℚ) :
    ∑ i : Fin 2, ∑ j : Fin joint_count,
        v3Ops.distanceSquared (allAt s i j) (allAt t i j) = 46 * ((s - t) * (s - t)) := by
  have hc : joint_count = 23 := by decide
  simp only [v3Ops, allAt, distanceSquared, Finset.sum_const, Finset.card_univ,
    Fintype.card_fin, hc]
  simp only [nsmul_eq_mul]
  push_cast
  ring

/-- C18: with exact coordinates `basicallySame` is reflexive and symmetric but not
transitive: the positions with every joint at `(0, 0, 0)`, at `(0.02, 0, 0)` and at
`(0.04, 0, 0)` are pairwise the same for neighbours and not the same for the outer two. -/
theorem basicallySame_tolerance :
    (∀ a : Position V3, basicallySame v3Ops a a = some true)
      ∧ (∀ a b : Position V3, basicallySame v3Ops a b = basicallySame v3Ops b a)
      ∧ (∃ a b c : Position V3, basicallySame v3Ops a b = some true
          ∧ basicallySame v3Ops b c = some true ∧ basicallySame v3Ops a c = some false) := by
  refine ⟨?_, ?_, allAt 0, allAt 0.02, allAt 0.04, ?_, ?_, ?_⟩
  · intro a
    rw [basicallySame_eq]
    have h : ∑ i : Fin 2, ∑ j : Fin joint_count,
        v3Ops.distanceSquared (a i j) (a i j) = 0 := by
      simp [v3Ops, distanceSquared_self]
    rw [h]
    norm_num
  · intro a b
    rw [basicallySame_eq, basicallySame_eq]
    have h : ∀ i j, v3Ops.distanceSquared (a i j) (b i j)
        = v3Ops.distanceSquared (b i j) (a i j) :=
      fun i j => distanceSquared_comm (a i j) (b i j)
    simp only [h]
  · rw [basicallySame_eq, sum_distanceSquared_allAt]
    norm_num
  · rw [basicallySame_eq, sum_distanceSquared_allAt]
    norm_num
  · rw [basicallySame_eq, sum_distanceSquared_allAt]
    norm_num

/-! ## Mirror images in the segment table -/

/-- The mirror image of a segment is a mirror of it. -/
theorem mirror_isMirrorOf (s : Segment) : s.mirror.isMirrorOf s := by
  unfold Segment.isMirrorOf Segment.mirror
  exact ⟨Or.inl rfl, rfl, rfl, rfl⟩

/-- The mirror image of a segment with its ends in the other order is a mirror of it. -/
theorem mirrorFlip_isMirrorOf (s : Segment) : s.mirrorFlip.isMirrorOf s := by
  unfold Segment.isMirrorOf Segment.mirrorFlip
  exact ⟨Or.inr rfl, rfl, rfl, rfl⟩

/-- C16 fails at the forearm: the segment from `LeftElbow` to `LeftWrist` is in the table
with rest length 0.26, no segment of the table is its mirror image, and the segment from
`RightElbow` to `RightWrist` is in the table with rest length 0.27. -/
theorem forearm_not_mirrored :
    (Segment.mk (LeftElbow, LeftWrist) 0.26 0.03 true) ∈ segments
      ∧ (¬ ∃ t ∈ segments, t.isMirrorOf (Segment.mk (LeftElbow, LeftWrist) 0.26 0.03 true))
      ∧ (Segment.mk (RightElbow, RightWrist) 0.27 0.03 true) ∈ segments := by
  refine ⟨by simp [segments], ?_, by simp [segments]⟩
  simp only [segments, Segment.isMirrorOf, Joint.mirror, List.mem_cons, List.mem_singleton,
    List.not_mem_nil, or_false]
  rintro ⟨t, ht, hm⟩
  rcases ht with h | h | h | h | h | h | h | h | h | h | h | h | h | h | h | h | h | h | h
      | h | h | h | h | h | h | h | h | h | h <;>
    · subst h
      revert hm
      norm_num
      try decide

/-- Every segment of the table other than the two forearms has its mirror image in the
table. -/
theorem mirrored_except_forearm :
    ∀ s ∈ segments, s.ends ≠ (LeftElbow, LeftWrist) → s.ends ≠ (RightElbow, RightWrist) →
      ∃ t ∈ segments, t.isMirrorOf s := by
  intro s hs h1 h2
  simp only [segments, List.mem_cons, List.mem_singleton, List.not_mem_nil, or_false] at hs
  rcases hs with h | h | h | h | h | h | h | h | h | h | h | h | h | h | h | h | h | h | h
      | h | h | h | h | h | h | h | h | h | h <;>
    first
      | exact absurd (congrArg Segment.ends h) h1
      | exact absurd (congrArg Segment.ends h) h2
      | (refine ⟨s.mirror, ?_, mirror_isMirrorOf s⟩
         subst h
         simp [segments, Segment.mirror, Joint.mirror]
         done)
      | (refine ⟨s.mirrorFlip, ?_, mirrorFlip_isMirrorOf s⟩
         subst h
         simp [segments, Segment.mirrorFlip, Joint.mirror])

/-! ## The fixed joint of the spring solver -/

/-- Two joints with the same array index are the same joint. -/
theorem Joint.toFin_injective (f g : Joint) (h : f.toFin = g.toFin) : f = g := by
  have hn : f.toNat = g.toNat := congrArg Fin.val h
  cases f <;> cases g <;> first | rfl | exact absurd hn (by decide)

/-- No segment of the table joins a joint to itself. -/
theorem segments_ends_ne : ∀ s ∈ segments, s.ends.1 ≠ s.ends.2 := by
  decide

/-- The correction of a segment with two different ends leaves the fixed joint where it
is. -/
theorem relaxSegment_fixed {V : Type} (S : Relaxation V) (f : Joint) (p : Player V)
    (s : Segment) (hs : s.ends.1 ≠ s.ends.2) :
    relaxSegment S (some f) p s f.toFin = p f.toFin := by
  unfold relaxSegment
  simp only [Option.some.injEq]
  by_cases h1 : f = s.ends.1
  · have hne : f.toFin ≠ s.ends.2.toFin := by
      intro h
      exact hs (h1 ▸ Joint.toFin_injective _ _ h)
    rw [if_pos h1, Function.update_noteq hne]
  · rw [if_neg h1]
    have hne1 : f.toFin ≠ s.ends.1.toFin := fun h => h1 (Joint.toFin_injective _ _ h)
    by_cases h2 : f = s.ends.2
    · rw [if_pos h2, Function.update_noteq hne1]
    · have hne2 : f.toFin ≠ s.ends.2.toFin := fun h => h2 (Joint.toFin_injective _ _ h)
      rw [if_neg h2, Function.update_noteq hne2, Function.update_noteq hne1]

/-- The correction of a segment with two different ends on both players leaves the
entry at the fixed key where it is. -/
theorem relaxSegmentBoth_fixed {V : Type} (S : Relaxation V) (k : PlayerJoint)
    (hk : k.player < 2) (pos : Position V) (s : Segment) (hs : s.ends.1 ≠ s.ends.2) :
    relaxSegmentBoth S (some k) pos s ⟨k.player, hk⟩ k.joint.toFin
      = pos ⟨k.player, hk⟩ k.joint.toFin := by
  unfold relaxSegmentBoth fixedFor
  simp only [if_true]
  exact relaxSegment_fixed S k.joint (pos ⟨k.player, hk⟩) s hs

/-- One pass over a list of segments with different ends leaves the fixed joint of a
skeleton where it is. -/
theorem foldl_relaxSegment_fixed {V : Type} (S : Relaxation V) (f : Joint) :
    ∀ (segs : List Segment) (p : Player V), (∀ s ∈ segs, s.ends.1 ≠ s.ends.2) →
      segs.foldl (relaxSegment S (some f)) p f.toFin = p f.toFin
  | [], _, _ => rfl
  | s :: segs, p, h => by
    rw [List.foldl_cons,
      foldl_relaxSegment_fixed S f segs _ (fun t ht => h t (List.mem_cons_of_mem s ht)),
      relaxSegment_fixed S f p s (h s (List.mem_cons_self s segs))]

/-- One pass over a list of segments with different ends leaves the fixed joint of a
position where it is. -/
theorem foldl_relaxSegmentBoth_fixed {V : Type} (S : Relaxation V) (k : PlayerJoint)
    (hk : k.player < 2) :
    ∀ (segs : List Segment) (pos : Position V), (∀ s ∈ segs, s.ends.1 ≠ s.ends.2) →
      segs.foldl (relaxSegmentBoth S (some k)) pos ⟨k.player, hk⟩ k.joint.toFin
        = pos ⟨k.player, hk⟩ k.joint.toFin
  | [], _, _ => rfl
  | s :: segs, pos, h => by
    rw [List.foldl_cons,
      foldl_relaxSegmentBoth_fixed S k hk segs _
        (fun t ht => h t (List.mem_cons_of_mem s ht)),
      relaxSegmentBoth_fixed S k hk pos s (h s (List.mem_cons_self s segs))]

/-- Repeating a step that keeps the value at one place keeps the value at that place. -/
theorem iterate_keeps {α β : Type} (step : α → α) (read : α → β)
    (h : ∀ x, read (step x) = read x) : ∀ (n : Nat) (x : α), read (step^[n] x) = read x
  | 0, _ => rfl
  | n + 1, x => by
    rw [Function.iterate_succ_apply, iterate_keeps step read h n, h]

/-- C13, fixed-joint invariance of the solver: for every solver setting, the fixed joint
of a single skeleton has the same coordinate before and after `spring`, and for a fixed
key with a valid player the entry of the position at that key is the same before and
after `spring`. -/
theorem spring_fixed_joint {V : Type} (S : Relaxation V) (p : Player V) (f : Joint)
    (pos : Position V) (k : PlayerJoint) (hk : k.player < 2) :
    spring S p (some f) f.toFin = p f.toFin
      ∧ ∃ v, pos.get? k = some v ∧ (springPosition S pos (some k)).get? k = some v := by
  constructor
  · unfold spring
    exact iterate_keeps _ (fun q : Player V => q f.toFin)
      (fun q => foldl_relaxSegment_fixed S f segments q segments_ends_ne) S.iterations p
  · refine ⟨_, get?_of_lt pos k hk, ?_⟩
    rw [get?_of_lt _ k hk]
    congr 1
    unfold springPosition
    exact iterate_keeps _ (fun q : Position V => q ⟨k.player, hk⟩ k.joint.toFin)
      (fun q => foldl_relaxSegmentBoth_fixed S k hk segments q segments_ends_ne)
      S.iterations pos

/-- Witness for C13: the sample solver with the left knee fixed, on player 0's skeleton
of the sample position and, for the key (1, `LeftKnee`), on the whole sample position. -/
theorem spring_fixed_joint_witness :
    (PlayerJoint.mk 1 LeftKnee).player < 2
      ∧ spring sampleRelaxation (sampleV3Position 0) (some LeftKnee) LeftKnee.toFin
          = sampleV3Position 0 LeftKnee.toFin
      ∧ ∃ v, sampleV3Position.get? ⟨1, LeftKnee⟩ = some v
          ∧ (springPosition sampleRelaxation sampleV3Position
              (some ⟨1, LeftKnee⟩)).get? ⟨1, LeftKnee⟩ = some v :=
  ⟨by decide,
    spring_fixed_joint sampleRelaxation (sampleV3Position 0) LeftKnee sampleV3Position
      ⟨1, LeftKnee⟩ (by decide)⟩

/-! ## The boundary of `basicallySame` in `double` arithmetic -/

/-- The double nearest to 3/100 is `double_0_03`, the value of the literal `0.03`. -/
theorem roundDouble_literal : roundDouble 0.03 = some double_0_03 := by
  have hlog : Int.log 2 |(0.03 : ℚ)| = -6 := by
    have hpos : (0 : ℚ) < |(0.03 : ℚ)| := by norm_num
    have h1 : (-6 : ℤ) ≤ Int.log 2 |(0.03 : ℚ)| :=
      (Int.zpow_le_iff_le_log (by norm_num) hpos).mp (by norm_num [abs_of_pos])
    have h2 : Int.log 2 |(0.03 : ℚ)| < -5 :=
      (Int.lt_zpow_iff_log_lt (by norm_num) hpos).mp (by norm_num [abs_of_pos])
    omega
  have hsp : doubleSpacing 0.03 = 2 ^ (-58 : ℤ) := by
    unfold doubleSpacing
    rw [hlog]
    norm_num
  have hfloor : ⌊(0.03 : ℚ) / 2 ^ (-58 : ℤ)⌋ = 8646911284551352 := by
    rw [Int.floor_eq_iff]
    constructor <;> norm_num
  have hround : roundHalfEven ((0.03 : ℚ) / 2 ^ (-58 : ℤ)) = 8646911284551352 := by
    unfold roundHalfEven
    rw [hfloor, if_pos (by norm_num)]
  have hval : ((8646911284551352 : ℤ) : ℚ) * 2 ^ (-58 : ℤ) = double_0_03 := by
    unfold double_0_03
    norm_num
  have hbound : |double_0_03| < 2 ^ 1024 := by
    have h1 : |double_0_03| < 1 := by
      unfold double_0_03
      rw [abs_of_pos (by norm_num)]
      norm_num
    exact lt_trans h1 (one_lt_pow₀ (by norm_num) (by norm_num))
  unfold roundDouble
  rw [if_neg (by norm_num), hsp, hround, hval, if_pos hbound]

end GrappleMap
